import Mathlib

/-!
# Verification of the Go full-text-search engine (`main.go`)

Shallow embedding of the TF-IDF indexing and ranking engine:
tokenization, inverted-index construction, term-frequency and IDF
computation, the TF-IDF index, query scoring and result ranking,
in both of the two evolutionary variants present in the source
(the `FTS`-struct methods and the standalone functions).

Modelling conventions:
* Go `string` values are Lean `String`s; tokens are `List Char`
  (the rune sequence), so that all key comparisons are decidable.
* Go `map` values are association lists with distinct keys, built in
  first-insertion order; Go's randomized iteration order never changes
  the key/value content of any map the program builds, and every
  theorem below reads maps through `lookupK`, which is order-blind.
* Go `float64` arithmetic is modelled exactly: term frequencies are
  rationals, `math.Log` is `Real.log`, scores live in `ℝ`.
* Document identifiers (Go `int`) are `Int`.
* Only the inline (`GenericDocument`) variant carries text in a pure
  way; the web/PDF variants perform I/O and are out of scope here, so
  a document is an (ID, text) pair.
-/

namespace FTSpec

/-- A token / map key: the sequence of characters of a Go string. -/
abbrev Str := List Char

/-- Association-list lookup, `m[k]` with an explicit `ok` flag:
`none` models `ok = false`. -/
def lookupK {K V : Type} [DecidableEq K] (m : List (K × V)) (k : K) : Option V :=
  match m with
  | [] => none
  | (k', v) :: rest => if k' = k then some v else lookupK rest k

/-- Association-list update `m[k] = f m[k]`, where `f` receives the
previous value if the key was present (`some v`) and `none` otherwise;
a fresh key is appended at the end (first-insertion order). -/
def setK {K V : Type} [DecidableEq K] (m : List (K × V)) (k : K) (f : Option V → V) :
    List (K × V) :=
  match m with
  | [] => [(k, f none)]
  | (k', v) :: rest => if k' = k then (k', f (some v)) :: rest else (k', v) :: setK rest k f

/-! ## Tokenizer (`tokenize`, via Go `strings.Fields` + `strings.ToLower`) -/

/-- Go `strings.Fields` on a rune list: split around maximal runs of
whitespace; `cur` is the (reversed) field being accumulated. -/
def fieldsAux (cur : Str) : Str → List Str
  | [] => if cur = [] then [] else [cur.reverse]
  | c :: rest =>
      if c.isWhitespace then
        if cur = [] then fieldsAux [] rest else cur.reverse :: fieldsAux [] rest
      else fieldsAux (c :: cur) rest

/-- Go `strings.Fields`: the maximal whitespace-free runs of the string. -/
def fields (s : Str) : List Str := fieldsAux [] s

/-- Go `strings.ToLower` (ASCII case, which is all the program feeds it). -/
def toLowerStr (s : Str) : Str := s.map Char.toLower

/-- The `tokenize` function (`main.go`): split text into words with `strings.Fields`
and normalize each to lowercase. -/
def tokenize (text : String) : List Str :=
  (fields text.toList).map toLowerStr

/-! ## Term frequency (`calculateTermFrequency`) -/

/-- The first loop of `calculateTermFrequency`: `tf[token]++` over the
token list, an occurrence-count map in first-occurrence order. -/
def countTokens (tokens : List Str) : List (Str × ℕ) :=
  tokens.foldl (fun m t => setK m t (fun o => o.getD 0 + 1)) []

/-- The `calculateTermFrequency` function (`main.go`): occurrence count of each token
divided by the total token count (`float64` division, exact here). -/
def calculateTermFrequency (tokens : List Str) : List (Str × ℚ) :=
  (countTokens tokens).map (fun p => (p.1, (p.2 : ℚ) / (tokens.length : ℚ)))

/-! ## Documents and index types -/

/-- An (ID, text) document: Go `GenericDocument` / the second variant's
`Document` struct.  (The web and PDF variants perform network and file
I/O in `GetText` and are outside the pure model.) -/
structure Document where
  ID : Int
  Text : String
deriving DecidableEq

/-- Type `InvertedIndex`: term → ordered posting list of document IDs. -/
abbrev InvertedIndex := List (Str × List Int)

/-- Type `TFIDFIndex`: term → (document ID → TF-IDF weight). -/
abbrev TFIDFIndex := List (Str × List (Int × ℝ))

/-! ## IDF (`calculateIDF`) -/

/-- The `calculateIDF` function (`main.go`): for each indexed term,
`math.Log(float64(totalDocs) / float64(len(docIDs)))`. -/
noncomputable def calculateIDF (index : InvertedIndex) (totalDocs : Int) :
    List (Str × ℝ) :=
  index.map (fun p => (p.1, Real.log ((totalDocs : ℝ) / (p.2.length : ℝ))))

/-! ## Index-building cores

Both source variants run the same two loops; the `FTS` methods start
from the struct's current maps, the standalone functions from fresh
ones.  `iiInsert`/`iiBuild` and `tfInsert`/`tfBuild` are those loops
with the start map explicit. -/

/-- Inner loop of the inverted-index build:
`index[token] = append(index[token], doc.ID)` over one document's tokens. -/
def iiInsert (idx : InvertedIndex) (d : Document) : InvertedIndex :=
  (tokenize d.Text).foldl (fun i tok => setK i tok (fun o => o.getD [] ++ [d.ID])) idx

/-- Outer loop of the inverted-index build over the document list. -/
def iiBuild (idx : InvertedIndex) (docs : List Document) : InvertedIndex :=
  docs.foldl iiInsert idx

/-- The TF-IDF build loops: for each document and each `(token, tf)` of
its term-frequency map, store `tfidfIndex[token][doc.ID] = tf * idf[token]`
(a missing `idf` key reads as the `float64` zero value). -/
noncomputable def tfBuild (tix : TFIDFIndex) (docs : List Document)
    (idf : List (Str × ℝ)) : TFIDFIndex :=
  docs.foldl (fun tix d =>
    (calculateTermFrequency (tokenize d.Text)).foldl (fun tix p =>
      setK tix p.1 (fun o =>
        setK (o.getD []) d.ID (fun _ => (p.2 : ℝ) * (lookupK idf p.1).getD 0))) tix) tix

/-- The search loops: accumulate `result[docID] += tf * tfidf` over the
query's term-frequency map and the matching TF-IDF columns. -/
noncomputable def searchCore (tix : TFIDFIndex) (query : String) : List (Int × ℝ) :=
  (calculateTermFrequency (tokenize query)).foldl (fun res p =>
    match lookupK tix p.1 with
    | none => res
    | some docIDs =>
        docIDs.foldl (fun res q => setK res q.1 (fun o => o.getD 0 + (p.2 : ℝ) * q.2)) res) []

/-! ## Variant 1: the `FTS` struct and its methods -/

/-- The `FTS` struct: the document collection and the two derived indexes. -/
structure FTS where
  Documents : List Document
  InvertedIndex : InvertedIndex
  TFIDFIndex : TFIDFIndex

/-- Constructor `NewFTS`: empty collection, empty indexes. -/
def NewFTS : FTS := ⟨[], [], []⟩

/-- Method `FTS.AddDocument`: append a document to the collection. -/
def FTS.AddDocument (fts : FTS) (d : Document) : FTS :=
  { fts with Documents := fts.Documents ++ [d] }

/-- Iterated `fts.AddDocument` over a whole list of documents. -/
def FTS.AddDocuments (fts : FTS) (docs : List Document) : FTS :=
  docs.foldl FTS.AddDocument fts

/-- Method `FTS.buildInvertedIndex`: append every document's postings into the
struct's current inverted index (the map is not reset first). -/
def FTS.buildInvertedIndex (fts : FTS) : FTS :=
  { fts with InvertedIndex := iiBuild fts.InvertedIndex fts.Documents }

/-- Method `FTS.buildTFIDFIndex`: recompute IDF from the current inverted index
and write every document's TF-IDF entries into the struct's current
TF-IDF map. -/
noncomputable def FTS.buildTFIDFIndex (fts : FTS) : FTS :=
  let totalDocs : Int := fts.Documents.length
  let idf := calculateIDF fts.InvertedIndex totalDocs
  { fts with TFIDFIndex := tfBuild fts.TFIDFIndex fts.Documents idf }

/-- Method `FTS.Start`: build the inverted index, then the TF-IDF index. -/
noncomputable def FTS.Start (fts : FTS) : FTS :=
  fts.buildInvertedIndex.buildTFIDFIndex

/-- Method `FTS.Search`: tokenize the query, compute its term frequencies, and
accumulate `tf * tfidf` per candidate document. -/
noncomputable def FTS.Search (fts : FTS) (query : String) : List (Int × ℝ) :=
  searchCore fts.TFIDFIndex query

/-! ## Variant 2: the standalone functions -/

/-- Function `buildInvertedIndex` (standalone variant): same loops, from a fresh map. -/
def buildInvertedIndex (docs : List Document) : InvertedIndex :=
  iiBuild [] docs

/-- Function `buildTFIDFIndex` (standalone variant): same loops, from a fresh map. -/
noncomputable def buildTFIDFIndex (docs : List Document)
    (invertedIndex : InvertedIndex) : TFIDFIndex :=
  tfBuild [] docs (calculateIDF invertedIndex docs.length)

/-- Function `searchTFIDF` (standalone variant): same loops as `FTS.Search`. -/
noncomputable def searchTFIDF (tfidfIndex : TFIDFIndex) (query : String) :
    List (Int × ℝ) :=
  searchCore tfidfIndex query

/-! ## Ranking (`rankSearchResults`)

Go collects the score map into a slice (in randomized map-iteration
order) and sorts it with `sort.Slice` under `score[i] > score[j]`; the
model sorts a given entry list into some order that is non-increasing in
the score, which is everything Go's (unstable) sort guarantees. -/

/-- The comparison `rankSearchResults` sorts by: earlier entries have
scores that are ≥ later ones. -/
def scoreGE (a b : Int × ℝ) : Prop := b.2 ≤ a.2

noncomputable instance : DecidableRel scoreGE := fun a b => Real.decidableLE b.2 a.2

instance : IsTotal (Int × ℝ) scoreGE := ⟨fun a b => le_total b.2 a.2⟩

instance : IsTrans (Int × ℝ) scoreGE := ⟨fun _ _ _ h1 h2 => le_trans h2 h1⟩

/-- Function `rankSearchResults`: sort the score entries by descending score and
return the document IDs. -/
noncomputable def rankSearchResults (results : List (Int × ℝ)) : List Int :=
  (List.insertionSort scoreGE results).map (fun r => r.1)

/-! ## Specification-side auxiliary definitions -/

/-- The posting list for term `t` over a document list: document IDs in
ingestion order, one per occurrence of `t` in the document's tokens. -/
def postings (docs : List Document) (t : Str) : List Int :=
  docs.flatMap (fun d => List.replicate ((tokenize d.Text).count t) d.ID)

/-- Appending a batch of postings to an optional posting list: the Go
read-modify-write `index[t] = append(index[t], ...)` at the level of
`lookupK` results; an empty batch leaves the map entry as it was. -/
def opApp (o : Option (List Int)) (l : List Int) : Option (List Int) :=
  if l = [] then o else some (o.getD [] ++ l)

/-- Adding a batch of `n` occurrences to an optional counter: the Go
`tf[token]++` read-modify-write at the level of `lookupK` results. -/
def addCount (o : Option ℕ) (n : ℕ) : Option ℕ :=
  match o with
  | some c => some (c + n)
  | none => if n = 0 then none else some n

/-- Sum of the natural counter values of an association list. -/
def sumCounts (m : List (Str × ℕ)) : ℕ := (m.map (fun p => p.2)).sum

/-- Nested lookup in a TF-IDF index: the stored weight of `(term, doc)`. -/
def lookup2 (tix : TFIDFIndex) (t : Str) (d : Int) : Option ℝ :=
  (lookupK tix t).bind (fun m => lookupK m d)

/-- The number of documents whose token list contains `t`. -/
def docsContaining (docs : List Document) (t : Str) : ℕ :=
  (docs.filter (fun d => decide (t ∈ tokenize d.Text))).length

/-! ## Concrete example states -/

/-- The two-document collection of the repository's own `TestSearch`. -/
noncomputable def exFTS : FTS :=
  ((NewFTS.AddDocument ⟨1, "This is a test document"⟩).AddDocument
      ⟨2, "This is another document"⟩).Start

/-- A one-document engine built once: the smallest state separating
"build once" from "build twice". -/
noncomputable def fts1 : FTS := (NewFTS.AddDocument ⟨1, "a"⟩).Start

/-! ## Generic association-list lemmas -/

@[simp] theorem lookupK_nil {K V : Type} [DecidableEq K] (k : K) :
    lookupK ([] : List (K × V)) k = none := rfl

theorem lookupK_cons {K V : Type} [DecidableEq K] (k' : K) (v : V) (rest : List (K × V)) (k : K) :
    lookupK ((k', v) :: rest) k = if k' = k then some v else lookupK rest k := rfl

/-- Reading an updated map: the updated key holds `f` of the old value,
every other key is untouched. -/
theorem lookupK_setK {K V : Type} [DecidableEq K] (m : List (K × V)) (k : K)
    (f : Option V → V) (k' : K) :
    lookupK (setK m k f) k' =
      if k = k' then some (f (lookupK m k)) else lookupK m k' := by
  induction m with
  | nil =>
    by_cases h : k = k' <;> simp [setK, lookupK, h]
  | cons p rest ih =>
    obtain ⟨k₀, v₀⟩ := p
    by_cases h0 : k₀ = k
    · subst h0
      by_cases h : k₀ = k' <;> simp [setK, lookupK, h]
    · by_cases h : k₀ = k'
      · subst h
        have hk : ¬ k = k₀ := fun h' => h0 h'.symm
        simp [setK, lookupK, h0, hk]
      · simp [setK, lookupK, h0, h, ih]

/-! ## Generic association-list lemmas -/

theorem lookupK_map {K V W : Type} [DecidableEq K] (m : List (K × V)) (g : V → W) (k : K) :
    lookupK (m.map (fun p => (p.1, g p.2))) k = (lookupK m k).map g := by
  induction m with
  | nil => rfl
  | cons p rest ih =>
    obtain ⟨k₀, v₀⟩ := p
    by_cases h : k₀ = k <;> simp [lookupK, h, ih]

theorem mem_of_lookupK_eq_some {K V : Type} [DecidableEq K] {m : List (K × V)} {k : K} {v : V}
    (h : lookupK m k = some v) : (k, v) ∈ m := by
  induction m with
  | nil => simp [lookupK] at h
  | cons p rest ih =>
    obtain ⟨k₀, v₀⟩ := p
    by_cases h0 : k₀ = k
    · subst h0
      simp [lookupK] at h
      simp [h]
    · simp [lookupK, h0] at h
      simp [ih h]

theorem lookupK_isSome_iff {K V : Type} [DecidableEq K] (m : List (K × V)) (k : K) :
    (lookupK m k).isSome ↔ k ∈ m.map (fun p => p.1) := by
  induction m with
  | nil => simp [lookupK]
  | cons p rest ih =>
    obtain ⟨k₀, v₀⟩ := p
    by_cases h0 : k₀ = k
    · subst h0
      simp [lookupK]
    · simp [lookupK, h0, ih, Ne.symm h0]

theorem fst_mem_of_mem_setK {K V : Type} [DecidableEq K] {m : List (K × V)} {k : K}
    {f : Option V → V} {q : K × V} (h : q ∈ setK m k f) : q.1 = k ∨ q.1 ∈ m.map (fun p => p.1) := by
  induction m with
  | nil =>
    simp [setK] at h
    simp [h]
  | cons p rest ih =>
    obtain ⟨k₀, v₀⟩ := p
    by_cases h0 : k₀ = k
    · subst h0
      simp [setK] at h
      rcases h with h | h
      · simp [h]
      · right
        right
        exact List.mem_map.mpr ⟨q, h, rfl⟩
    · simp [setK, h0] at h
      rcases h with h | h
      · simp [h]
      · rcases ih h with h' | h'
        · simp [h']
        · simp [h']

/-! ## Posting-list lemmas -/

@[simp] theorem opApp_nil (o : Option (List Int)) : opApp o [] = o := rfl

theorem opApp_opApp (o : Option (List Int)) (l₁ l₂ : List Int) :
    opApp (opApp o l₁) l₂ = opApp o (l₁ ++ l₂) := by
  by_cases h1 : l₁ = [] <;> by_cases h2 : l₂ = [] <;>
    simp [opApp, h1, h2, List.append_assoc]

theorem lookupK_tokensFold (toks : List Str) (idx : InvertedIndex) (t : Str) (id : Int) :
    lookupK (toks.foldl (fun i tok => setK i tok (fun o => o.getD [] ++ [id])) idx) t =
      opApp (lookupK idx t) (List.replicate (toks.count t) id) := by
  induction toks generalizing idx with
  | nil => simp
  | cons tok toks ih =>
    rw [List.foldl_cons, ih, lookupK_setK]
    by_cases h : tok = t
    · subst h
      rw [if_pos rfl, List.count_cons_self]
      by_cases hc : toks.count tok = 0
      · simp [hc, opApp]
      · have hne : List.replicate (toks.count tok) id ≠ [] := by simp [hc]
        have hne2 : List.replicate (toks.count tok + 1) id ≠ [] := by simp
        simp only [opApp, if_neg hne, if_neg hne2, Option.getD_some]
        simp [List.replicate_succ, List.append_assoc]
    · rw [if_neg h, List.count_cons_of_ne (fun h' => h h'.symm)]

theorem lookupK_iiInsert (idx : InvertedIndex) (d : Document) (t : Str) :
    lookupK (iiInsert idx d) t =
      opApp (lookupK idx t) (List.replicate ((tokenize d.Text).count t) d.ID) :=
  lookupK_tokensFold _ idx t d.ID

theorem lookupK_iiBuild (idx : InvertedIndex) (docs : List Document) (t : Str) :
    lookupK (iiBuild idx docs) t = opApp (lookupK idx t) (postings docs t) := by
  induction docs generalizing idx with
  | nil => simp [iiBuild, postings]
  | cons d docs ih =>
    rw [iiBuild, List.foldl_cons]
    have : docs.foldl iiInsert (iiInsert idx d) = iiBuild (iiInsert idx d) docs := rfl
    rw [this, ih, lookupK_iiInsert, opApp_opApp]
    rfl

/-- The standalone `buildInvertedIndex` characterized: term `t` maps to
its full ingestion-order posting list, and is absent exactly when no
document contains it. -/
theorem lookupK_buildInvertedIndex (docs : List Document) (t : Str) :
    lookupK (buildInvertedIndex docs) t =
      if postings docs t = [] then none else some (postings docs t) := by
  rw [buildInvertedIndex, lookupK_iiBuild]
  by_cases h : postings docs t = [] <;> simp [opApp, h]

/-! ## Term-frequency lemmas -/

theorem lookupK_countFold (toks : List Str) (m : List (Str × ℕ)) (t : Str) :
    lookupK (toks.foldl (fun m tok => setK m tok (fun o => o.getD 0 + 1)) m) t =
      addCount (lookupK m t) (toks.count t) := by
  induction toks generalizing m with
  | nil =>
    simp only [List.foldl_nil, List.count_nil]
    cases h : lookupK m t <;> simp [addCount]
  | cons tok toks ih =>
    rw [List.foldl_cons, ih, lookupK_setK]
    by_cases h : tok = t
    · subst h
      rw [if_pos rfl, List.count_cons_self]
      cases h' : lookupK m tok <;> simp [addCount, h'] <;> omega
    · rw [if_neg h, List.count_cons_of_ne (fun h' => h h'.symm)]

/-- Map `countTokens` characterized: a token maps to its occurrence count,
and an absent token is not a key. -/
theorem lookupK_countTokens (toks : List Str) (t : Str) :
    lookupK (countTokens toks) t = if t ∈ toks then some (toks.count t) else none := by
  rw [countTokens, lookupK_countFold]
  by_cases h : t ∈ toks
  · have : toks.count t ≠ 0 := by
      simp [List.count_eq_zero]
      exact h
    simp [addCount, lookupK, this, h]
  · have : toks.count t = 0 := List.count_eq_zero.mpr h
    simp [addCount, lookupK, this, h]

/-- Map `calculateTermFrequency` characterized: a token maps to
`count / total`, and an absent token is not a key. -/
theorem lookupK_calculateTermFrequency (toks : List Str) (t : Str) :
    lookupK (calculateTermFrequency toks) t =
      if t ∈ toks then some ((toks.count t : ℚ) / (toks.length : ℚ)) else none := by
  have H := lookupK_map (countTokens toks) (fun c : ℕ => (c : ℚ) / (toks.length : ℚ)) t
  simp only [calculateTermFrequency]
  simp only [H, lookupK_countTokens]
  by_cases h : t ∈ toks <;> simp [h]

theorem fst_mem_toks_of_mem_countTokens {toks : List Str} {p : Str × ℕ}
    (h : p ∈ countTokens toks) : p.1 ∈ toks := by
  rw [countTokens] at h
  suffices H : ∀ (m : List (Str × ℕ)),
      p ∈ toks.foldl (fun m tok => setK m tok (fun o => o.getD 0 + 1)) m →
      p.1 ∈ toks ∨ p.1 ∈ m.map (fun q => q.1) by
    rcases H [] h with h' | h'
    · exact h'
    · simp at h'
  clear h
  induction toks with
  | nil => intro m hm; right; exact List.mem_map.mpr ⟨p, hm, rfl⟩
  | cons tok toks ih =>
    intro m hm
    rw [List.foldl_cons] at hm
    rcases ih _ hm with h' | h'
    · exact Or.inl (List.mem_cons_of_mem _ h')
    · rcases List.mem_map.mp h' with ⟨q, hq, hq1⟩
      rcases fst_mem_of_mem_setK hq with h'' | h''
      · left
        rw [hq1] at h''
        simp [h'']
      · right
        rw [← hq1]
        exact h''

theorem fst_mem_toks_of_mem_ctf {toks : List Str} {p : Str × ℚ}
    (h : p ∈ calculateTermFrequency toks) : p.1 ∈ toks := by
  rw [calculateTermFrequency] at h
  rcases List.mem_map.mp h with ⟨q, hq, hq1⟩
  have := fst_mem_toks_of_mem_countTokens hq
  rw [← hq1]
  exact this

theorem sumCounts_setK (m : List (Str × ℕ)) (t : Str) :
    sumCounts (setK m t (fun o => o.getD 0 + 1)) = sumCounts m + 1 := by
  induction m with
  | nil => simp [setK, sumCounts]
  | cons p rest ih =>
    obtain ⟨k₀, v₀⟩ := p
    by_cases h : k₀ = t
    · simp [setK, h, sumCounts]
      omega
    · simp [setK, h, sumCounts] at ih ⊢
      omega

theorem sumCounts_countTokens (toks : List Str) :
    sumCounts (countTokens toks) = toks.length := by
  rw [countTokens]
  suffices H : ∀ (m : List (Str × ℕ)),
      sumCounts (toks.foldl (fun m tok => setK m tok (fun o => o.getD 0 + 1)) m) =
        sumCounts m + toks.length by
    simpa [sumCounts] using H []
  induction toks with
  | nil => simp
  | cons tok toks ih =>
    intro m
    rw [List.foldl_cons, ih, sumCounts_setK]
    simp
    omega

/-- The term-frequency values of a nonempty token list sum to `1`. -/
theorem sum_calculateTermFrequency (toks : List Str) (h : toks ≠ []) :
    ((calculateTermFrequency toks).map (fun p => p.2)).sum = 1 := by
  have hlen : (toks.length : ℚ) ≠ 0 := by
    simp [List.length_eq_zero]
    exact h
  rw [calculateTermFrequency]
  have hdiv : ∀ (m : List (Str × ℕ)),
      ((m.map (fun p => (p.1, (p.2 : ℚ) / (toks.length : ℚ)))).map (fun p => p.2)).sum =
        (sumCounts m : ℚ) / (toks.length : ℚ) := by
    intro m
    induction m with
    | nil => simp [sumCounts]
    | cons p rest ih =>
      simp only [List.map_cons, List.sum_cons, ih, sumCounts]
      push_cast
      ring
  rw [hdiv, sumCounts_countTokens, div_self hlen]

/-! ## FTS state lemmas -/

theorem addDocuments_state (docs : List Document) (l : List Document)
    (ii : InvertedIndex) (tf : TFIDFIndex) :
    FTS.AddDocuments ⟨l, ii, tf⟩ docs = ⟨l ++ docs, ii, tf⟩ := by
  induction docs generalizing l with
  | nil => simp [FTS.AddDocuments]
  | cons d docs ih =>
    rw [FTS.AddDocuments, List.foldl_cons]
    have : FTS.AddDocument ⟨l, ii, tf⟩ d = ⟨l ++ [d], ii, tf⟩ := rfl
    rw [this]
    have := ih (l ++ [d])
    rw [FTS.AddDocuments] at this
    rw [this]
    simp

/-- Ingesting the documents into a fresh `FTS` stores exactly that
collection, with both indexes still empty. -/
theorem NewFTS_AddDocuments (docs : List Document) :
    FTS.AddDocuments NewFTS docs = ⟨docs, [], []⟩ := by
  have := addDocuments_state docs [] [] []
  simpa [NewFTS] using this

/-! ## TF-IDF index lemmas -/

/-- A term occurring in no ingested document (and not already a key)
never becomes a key of the TF-IDF index. -/
theorem lookupK_tfBuild_none (docs : List Document) (idf : List (Str × ℝ)) (t : Str) :
    ∀ tix : TFIDFIndex, lookupK tix t = none →
      (∀ d ∈ docs, t ∉ tokenize d.Text) →
      lookupK (tfBuild tix docs idf) t = none := by
  induction docs with
  | nil =>
    intro tix h0 _
    simpa [tfBuild]
  | cons d docs ih =>
    intro tix h0 h
    have hinner : ∀ (l : List (Str × ℚ)) (tix' : TFIDFIndex),
        (∀ p ∈ l, p.1 ≠ t) → lookupK tix' t = none →
        lookupK (l.foldl (fun tix p =>
          setK tix p.1 (fun o =>
            setK (o.getD []) d.ID (fun _ => (p.2 : ℝ) * (lookupK idf p.1).getD 0))) tix') t
          = none := by
      intro l
      induction l with
      | nil =>
        intro tix' _ h'
        simpa
      | cons p l ihl =>
        intro tix' hl h'
        rw [List.foldl_cons]
        refine ihl _ (fun q hq => hl q (List.mem_cons_of_mem _ hq)) ?_
        rw [lookupK_setK, if_neg (hl p (List.mem_cons_self _ _)), h']
    have step : lookupK ((calculateTermFrequency (tokenize d.Text)).foldl (fun tix p =>
        setK tix p.1 (fun o =>
          setK (o.getD []) d.ID (fun _ => (p.2 : ℝ) * (lookupK idf p.1).getD 0))) tix) t
        = none := by
      refine hinner _ _ (fun p hp hpt => ?_) h0
      exact h d (List.mem_cons_self _ _) (hpt ▸ fst_mem_toks_of_mem_ctf hp)
    rw [tfBuild, List.foldl_cons]
    exact ih _ step (fun d' hd' => h d' (List.mem_cons_of_mem _ hd'))

/-! ## Search lemmas -/

theorem searchCore_empty_query (tix : TFIDFIndex) : searchCore tix "" = [] := rfl

/-- A query none of whose term-frequency keys is in the TF-IDF index
accumulates nothing. -/
theorem searchCore_eq_nil (tix : TFIDFIndex) (q : String)
    (h : ∀ p ∈ calculateTermFrequency (tokenize q), lookupK tix p.1 = none) :
    searchCore tix q = [] := by
  rw [searchCore]
  suffices H : ∀ (l : List (Str × ℚ)) (res : List (Int × ℝ)),
      (∀ p ∈ l, lookupK tix p.1 = none) →
      l.foldl (fun res p =>
        match lookupK tix p.1 with
        | none => res
        | some docIDs =>
            docIDs.foldl (fun res q => setK res q.1 (fun o => o.getD 0 + (p.2 : ℝ) * q.2)) res)
        res = res from H _ [] h
  intro l
  induction l with
  | nil =>
    intro res _
    rfl
  | cons p l ih =>
    intro res hl
    rw [List.foldl_cons]
    have hp := hl p (List.mem_cons_self _ _)
    rw [hp]
    exact ih res (fun q hq => hl q (List.mem_cons_of_mem _ hq))

theorem lookupK_innerFold_isSome (m : List (Int × ℝ)) (d : Int) (c : ℝ) :
    ∀ res : List (Int × ℝ),
      (lookupK (m.foldl (fun res q => setK res q.1 (fun o => o.getD 0 + c * q.2)) res) d).isSome
        ↔ (lookupK res d).isSome ∨ d ∈ m.map (fun q => q.1) := by
  induction m with
  | nil => simp
  | cons q m ih =>
    intro res
    rw [List.foldl_cons, ih, lookupK_setK]
    by_cases h : q.1 = d
    · simp [h]
    · have h' : d ≠ q.1 := fun h'' => h h''.symm
      simp [h, h', or_assoc]

/-- Which document IDs the search fold has seen: a key is present in the
accumulated result iff it was in the starting accumulator or in the
TF-IDF column of some processed query term. -/
theorem lookupK_queryFold_isSome (tix : TFIDFIndex) (d : Int) :
    ∀ (l : List (Str × ℚ)) (res : List (Int × ℝ)),
      (lookupK (l.foldl (fun res p =>
        match lookupK tix p.1 with
        | none => res
        | some docIDs =>
            docIDs.foldl (fun res q => setK res q.1 (fun o => o.getD 0 + (p.2 : ℝ) * q.2)) res)
        res) d).isSome
      ↔ (lookupK res d).isSome ∨
        ∃ p ∈ l, ∃ m, lookupK tix p.1 = some m ∧ d ∈ m.map (fun q => q.1) := by
  intro l
  induction l with
  | nil => simp
  | cons p l ih =>
    intro res
    rw [List.foldl_cons]
    cases hm : lookupK tix p.1 with
    | none =>
      rw [ih]
      constructor
      · rintro (h | h)
        · exact Or.inl h
        · exact Or.inr (by
            rcases h with ⟨p', hp', hrest⟩
            exact ⟨p', List.mem_cons_of_mem _ hp', hrest⟩)
      · rintro (h | ⟨p', hp', m, hm', hd⟩)
        · exact Or.inl h
        · rcases List.mem_cons.mp hp' with h' | h'
          · subst h'
            rw [hm] at hm'
            cases hm'
          · exact Or.inr ⟨p', h', m, hm', hd⟩
    | some m =>
      rw [ih, lookupK_innerFold_isSome]
      constructor
      · rintro ((h | h) | h)
        · exact Or.inl h
        · exact Or.inr ⟨p, List.mem_cons_self _ _, m, hm, h⟩
        · rcases h with ⟨p', hp', hrest⟩
          exact Or.inr ⟨p', List.mem_cons_of_mem _ hp', hrest⟩
      · rintro (h | ⟨p', hp', m', hm', hd⟩)
        · exact Or.inl (Or.inl h)
        · rcases List.mem_cons.mp hp' with h' | h'
          · subst h'
            rw [hm] at hm'
            cases hm'
            exact Or.inl (Or.inr hd)
          · exact Or.inr ⟨p', h', m', hm', hd⟩

/-- The candidate set of `searchCore`: a document ID is a key of the
result iff some query token's TF-IDF column contains it (whatever the
stored weight, including `0`). -/
theorem lookupK_searchCore_isSome (tix : TFIDFIndex) (q : String) (d : Int) :
    (lookupK (searchCore tix q) d).isSome ↔
      ∃ t, t ∈ tokenize q ∧ ∃ m, lookupK tix t = some m ∧ (lookupK m d).isSome := by
  rw [searchCore, lookupK_queryFold_isSome]
  simp only [lookupK_nil, Option.isSome_none, Bool.false_eq_true, false_or]
  constructor
  · rintro ⟨p, hp, m, hm, hd⟩
    exact ⟨p.1, fst_mem_toks_of_mem_ctf hp, m, hm, (lookupK_isSome_iff m d).mpr hd⟩
  · rintro ⟨t, ht, m, hm, hd⟩
    have hq : lookupK (calculateTermFrequency (tokenize q)) t =
        some (((tokenize q).count t : ℚ) / ((tokenize q).length : ℚ)) := by
      rw [lookupK_calculateTermFrequency, if_pos ht]
    exact ⟨(t, ((tokenize q).count t : ℚ) / ((tokenize q).length : ℚ)),
      mem_of_lookupK_eq_some hq, m, hm, (lookupK_isSome_iff m d).mp hd⟩

/-! ## Posting-list combinatorics -/

theorem postings_eq_nil_iff (docs : List Document) (t : Str) :
    postings docs t = [] ↔ ∀ d ∈ docs, t ∉ tokenize d.Text := by
  simp [postings, List.count_eq_zero]

theorem mem_postings {docs : List Document} {d : Document} {t : Str}
    (hd : d ∈ docs) (ht : t ∈ tokenize d.Text) : d.ID ∈ postings docs t := by
  rw [postings, List.mem_flatMap]
  refine ⟨d, hd, ?_⟩
  rw [List.mem_replicate]
  constructor
  · have := List.count_pos_iff.mpr ht
    omega
  · rfl

theorem length_postings_of_once (docs : List Document) (t : Str)
    (h : ∀ d ∈ docs, (tokenize d.Text).count t ≤ 1) :
    (postings docs t).length = docsContaining docs t := by
  induction docs with
  | nil => simp [postings, docsContaining]
  | cons d docs ih =>
    have hd := h d (List.mem_cons_self _ _)
    have ih' := ih (fun d' hd' => h d' (List.mem_cons_of_mem _ hd'))
    by_cases hm : t ∈ tokenize d.Text
    · have hc : (tokenize d.Text).count t = 1 := by
        have := List.count_pos_iff.mpr hm
        omega
      simp [postings, docsContaining, List.filter_cons, hm, hc] at ih' ⊢
      exact ih'
    · have hc : (tokenize d.Text).count t = 0 := List.count_eq_zero.mpr hm
      simp [postings, docsContaining, List.filter_cons, hm, hc] at ih' ⊢
      exact ih'

theorem docsContaining_le (docs : List Document) (t : Str) :
    docsContaining docs t ≤ docs.length :=
  List.length_filter_le _ _

theorem docsContaining_eq_length (docs : List Document) (t : Str)
    (h : ∀ d ∈ docs, t ∈ tokenize d.Text) : docsContaining docs t = docs.length := by
  rw [docsContaining, List.filter_eq_self.mpr (fun d hd => by simpa using h d hd)]

/-! ## Sorting helper: a sorted list with pairwise-distinct scores is
the unique sorted permutation of its entries. -/

theorem eq_of_perm_sorted : ∀ {l₁ l₂ : List (Int × ℝ)}, l₁.Perm l₂ →
    l₁.Sorted scoreGE → l₂.Sorted scoreGE → (l₁.map (fun p => p.2)).Nodup → l₁ = l₂
  | [], l₂, hp, _, _, _ => hp.nil_eq
  | a :: t₁, [], hp, _, _, _ => absurd hp.symm.nil_eq (List.cons_ne_nil a t₁ ∘ Eq.symm)
  | a :: t₁, b :: t₂, hp, hs₁, hs₂, hnd => by
    rw [List.map_cons] at hnd
    have hnd' := List.nodup_cons.mp hnd
    have hab : a = b := by
      by_contra hne
      have ha2 : a ∈ b :: t₂ := hp.mem_iff.mp (List.mem_cons_self _ _)
      have hb1 : b ∈ a :: t₁ := hp.symm.mem_iff.mp (List.mem_cons_self _ _)
      have ha2' : a ∈ t₂ := by
        rcases List.mem_cons.mp ha2 with h | h
        · exact absurd h hne
        · exact h
      have hb1' : b ∈ t₁ := by
        rcases List.mem_cons.mp hb1 with h | h
        · exact absurd h.symm hne
        · exact h
      have h1 : scoreGE b a := List.rel_of_sorted_cons hs₂ a ha2'
      have h2 : scoreGE a b := List.rel_of_sorted_cons hs₁ b hb1'
      have heq : a.2 = b.2 := le_antisymm h1 h2
      exact hnd'.1 (heq ▸ List.mem_map.mpr ⟨b, hb1', rfl⟩)
    subst hab
    have ht : t₁.Perm t₂ := (List.perm_cons a).mp hp
    have htl := eq_of_perm_sorted ht hs₁.of_cons hs₂.of_cons hnd'.2
    rw [htl]

/-! ## Tokenizer characterization -/

theorem modifyHead_id_eq (l : List Str) : l.modifyHead (fun x => x) = l := by
  cases l <;> rfl

theorem fieldsAux_eq_splitOnP (s : Str) : ∀ cur : Str,
    fieldsAux cur s =
      ((s.splitOnP (fun c => c.isWhitespace)).modifyHead (fun x => cur.reverse ++ x)).filter
        (fun t => decide (t ≠ [])) := by
  induction s with
  | nil =>
    intro cur
    by_cases h : cur = []
    · simp [fieldsAux, h, List.splitOnP_nil]
    · have : cur.reverse ≠ [] := by simpa using h
      simp [fieldsAux, h, List.splitOnP_nil, this]
  | cons c rest ih =>
    intro cur
    by_cases hw : c.isWhitespace
    · rw [List.splitOnP_cons]
      simp only [hw, if_true]
      by_cases h : cur = []
      · subst h
        simp only [fieldsAux, hw, if_true, if_pos rfl]
        rw [ih []]
        simp [List.filter_cons, modifyHead_id_eq]
      · simp only [fieldsAux, hw, if_true, if_neg h]
        rw [ih []]
        have : cur.reverse ≠ [] := by simpa using h
        simp [List.filter_cons, this, modifyHead_id_eq]
    · have hw' : c.isWhitespace = false := by simpa using hw
      rw [List.splitOnP_cons, hw']
      simp only [Bool.false_eq_true, if_false]
      have hst : fieldsAux cur (c :: rest) = fieldsAux (c :: cur) rest := by
        simp [fieldsAux, hw']
      rw [hst, ih (c :: cur), List.modifyHead_modifyHead]
      congr 2
      funext x
      simp

/-- Function `fields` is `splitOnP` on whitespace with the empty chunks dropped:
the fields are exactly the maximal whitespace-free runs, kept verbatim. -/
theorem fields_eq_splitOnP (s : Str) :
    fields s = ((s.splitOnP (fun c => c.isWhitespace)).filter (fun t => decide (t ≠ []))) := by
  rw [fields, fieldsAux_eq_splitOnP]
  congr 1
  cases h : s.splitOnP (fun c => c.isWhitespace) with
  | nil => rfl
  | cons a l => simp [List.modifyHead]

/-! ## Claim theorems -/

/-- C7: `tokenize` splits its input on maximal whitespace runs and
lowercases each token — it equals `splitOnP` on whitespace with empty
chunks dropped and `toLowerStr` mapped over the runs, so nothing inside
a run (e.g. punctuation) is altered or removed; the concrete example,
the empty string, and a punctuation-keeping example evaluate as
specified; and, being a function of the input string alone, it is
deterministic. -/
theorem C7_tokenize_spec :
    tokenize "This is a TEST" = ["this".toList, "is".toList, "a".toList, "test".toList]
    ∧ tokenize "" = []
    ∧ (∀ s : String, tokenize s =
        ((s.toList.splitOnP (fun c => c.isWhitespace)).filter
          (fun t => decide (t ≠ []))).map toLowerStr)
    ∧ tokenize "Go language." = ["go".toList, "language.".toList]
    ∧ (∀ s : String, tokenize s = tokenize s) := by
  refine ⟨by decide, rfl, fun s => ?_, by decide, fun s => rfl⟩
  rw [tokenize, fields_eq_splitOnP]

/-- C6: `calculateTermFrequency` maps each token to occurrence count
over total count (`2/3` and `1/3` on the example), its values sum to
`1` for every nonempty token list, and the empty token list yields the
empty map rather than a division-by-zero fault. -/
theorem C6_termFrequency_spec :
    (lookupK (calculateTermFrequency ["a".toList, "a".toList, "b".toList]) "a".toList
        = some (2/3)
      ∧ lookupK (calculateTermFrequency ["a".toList, "a".toList, "b".toList]) "b".toList
        = some (1/3))
    ∧ (∀ (toks : List Str) (t : Str), t ∈ toks →
        lookupK (calculateTermFrequency toks) t
          = some ((toks.count t : ℚ) / (toks.length : ℚ)))
    ∧ (∀ toks : List Str, toks ≠ [] →
        ((calculateTermFrequency toks).map (fun p => p.2)).sum = 1)
    ∧ calculateTermFrequency [] = [] := by
  refine ⟨⟨?_, ?_⟩, ?_, sum_calculateTermFrequency, rfl⟩
  · norm_num [calculateTermFrequency, countTokens, setK, lookupK]
  · norm_num [calculateTermFrequency, countTokens, setK, lookupK]
    decide
  · intro toks t ht
    rw [lookupK_calculateTermFrequency, if_pos ht]

/-- Witness for C6 at concrete inputs. -/
theorem C6_witness :
    ("b".toList ∈ (["a".toList, "a".toList, "b".toList] : List Str)
      ∧ lookupK (calculateTermFrequency ["a".toList, "a".toList, "b".toList]) "b".toList
          = some (((["a".toList, "a".toList, "b".toList] : List Str).count "b".toList : ℚ)
              / ((["a".toList, "a".toList, "b".toList] : List Str).length : ℚ)))
    ∧ ((["a".toList, "a".toList, "b".toList] : List Str) ≠ []
      ∧ ((calculateTermFrequency ["a".toList, "a".toList, "b".toList]).map
          (fun p => p.2)).sum = 1) :=
  ⟨⟨by decide, C6_termFrequency_spec.2.1 _ _ (by decide)⟩,
    ⟨by decide, C6_termFrequency_spec.2.2.1 _ (by decide)⟩⟩

/-- C8: the inverted index contains each containing document's ID in
the posting list of every term it contains; a term contained in no
document is not a key; and each posting list is exactly the
ingestion-order list `postings` (one ID per occurrence). -/
theorem C8_invertedIndex_spec :
    (∀ (docs : List Document) (d : Document) (t : Str), d ∈ docs → t ∈ tokenize d.Text →
        ∃ l, lookupK (buildInvertedIndex docs) t = some l ∧ d.ID ∈ l)
    ∧ (∀ (docs : List Document) (t : Str), (∀ d ∈ docs, t ∉ tokenize d.Text) →
        lookupK (buildInvertedIndex docs) t = none)
    ∧ (∀ (docs : List Document) (t : Str) (l : List Int),
        lookupK (buildInvertedIndex docs) t = some l → l = postings docs t) := by
  refine ⟨?_, ?_, ?_⟩
  · intro docs d t hd ht
    have hmem := mem_postings hd ht
    have hne : postings docs t ≠ [] := List.ne_nil_of_mem hmem
    rw [lookupK_buildInvertedIndex, if_neg hne]
    exact ⟨postings docs t, rfl, hmem⟩
  · intro docs t h
    rw [lookupK_buildInvertedIndex, if_pos ((postings_eq_nil_iff docs t).mpr h)]
  · intro docs t l h
    rw [lookupK_buildInvertedIndex] at h
    by_cases hp : postings docs t = []
    · rw [if_pos hp] at h
      cases h
    · rw [if_neg hp] at h
      exact (Option.some_injective _ h).symm

/-- Witness for C8 at a concrete two-document collection. -/
theorem C8_witness :
    ((⟨2, "b"⟩ : Document) ∈ ([⟨1, "a b"⟩, ⟨2, "b"⟩] : List Document)
      ∧ "b".toList ∈ tokenize (⟨2, "b"⟩ : Document).Text
      ∧ ∃ l, lookupK (buildInvertedIndex [⟨1, "a b"⟩, ⟨2, "b"⟩]) "b".toList = some l
          ∧ (⟨2, "b"⟩ : Document).ID ∈ l)
    ∧ ((∀ d ∈ ([⟨1, "a b"⟩, ⟨2, "b"⟩] : List Document), "z".toList ∉ tokenize d.Text)
      ∧ lookupK (buildInvertedIndex [⟨1, "a b"⟩, ⟨2, "b"⟩]) "z".toList = none)
    ∧ (lookupK (buildInvertedIndex [⟨1, "a b"⟩, ⟨2, "b"⟩]) "b".toList = some [1, 2]
      ∧ [(1 : Int), 2] = postings [⟨1, "a b"⟩, ⟨2, "b"⟩] "b".toList) :=
  ⟨⟨by decide, by decide, C8_invertedIndex_spec.1 _ _ _ (by decide) (by decide)⟩,
    ⟨by decide, C8_invertedIndex_spec.2.1 _ _ (by decide)⟩,
    ⟨by decide, C8_invertedIndex_spec.2.2 _ _ _ (by decide)⟩⟩

/-- C2 as stated is false: in the one-document collection whose only
text is "a a", the term "a" occurs in all (one) documents and so should
get IDF `ln(1/1) = 0 ≥ 0`, but `calculateIDF` divides by the
posting-list length — 2, one entry per occurrence — and yields
`ln(1/2) < 0`. -/
theorem C2_counterexample :
    ∃ v, lookupK (calculateIDF (buildInvertedIndex [⟨1, "a a"⟩]) 1) "a".toList = some v
      ∧ v < 0 := by
  have hii : buildInvertedIndex [⟨1, "a a"⟩] = [("a".toList, [1, 1])] := by decide
  refine ⟨Real.log (((1 : Int) : ℝ) / (([(1 : Int), 1].length : ℕ) : ℝ)), ?_, ?_⟩
  · rw [hii]
    simp [calculateIDF, lookupK]
  · have h2 : (((1 : Int) : ℝ) / (([(1 : Int), 1].length : ℕ) : ℝ)) = 1 / 2 := by
      norm_num
    rw [h2]
    exact Real.log_neg (by norm_num) (by norm_num)

/-- C2 amended: `calculateIDF` maps every indexed term `t` to
`ln(totalDocs / k)` where `k` is the **length of `t`'s posting list**
(one entry per occurrence).  When no document contains `t` more than
once, `k` is the number of distinct documents containing `t`, the IDF
is nonnegative, and a term occurring in every document gets IDF `0`. -/
theorem C2_idf_amended (docs : List Document) (t : Str) (l : List Int)
    (hN : 1 ≤ docs.length)
    (hl : lookupK (buildInvertedIndex docs) t = some l) :
    lookupK (calculateIDF (buildInvertedIndex docs) docs.length) t
      = some (Real.log ((docs.length : ℝ) / (l.length : ℝ)))
    ∧ ((∀ d ∈ docs, (tokenize d.Text).count t ≤ 1) →
        l.length = docsContaining docs t
        ∧ 0 ≤ Real.log ((docs.length : ℝ) / (l.length : ℝ))
        ∧ ((∀ d ∈ docs, t ∈ tokenize d.Text) →
            Real.log ((docs.length : ℝ) / (l.length : ℝ)) = 0)) := by
  have hlp : l = postings docs t := by
    rw [lookupK_buildInvertedIndex] at hl
    by_cases hp : postings docs t = []
    · rw [if_pos hp] at hl
      cases hl
    · rw [if_neg hp] at hl
      exact (Option.some_injective _ hl).symm
  have hlne : l ≠ [] := by
    rw [lookupK_buildInvertedIndex] at hl
    by_cases hp : postings docs t = []
    · rw [if_pos hp] at hl
      cases hl
    · rw [if_neg hp] at hl
      rw [hlp]
      exact hp
  have hlpos : 0 < l.length := List.length_pos.mpr hlne
  constructor
  · have H := lookupK_map (buildInvertedIndex docs)
      (fun pl : List Int => Real.log (((docs.length : Int) : ℝ) / (pl.length : ℝ))) t
    simp only [calculateIDF]
    rw [H, hl]
    simp
  · intro honce
    have hlen : l.length = docsContaining docs t := by
      rw [hlp]
      exact length_postings_of_once docs t honce
    have hle : l.length ≤ docs.length := hlen ▸ docsContaining_le docs t
    refine ⟨hlen, ?_, ?_⟩
    · apply Real.log_nonneg
      rw [le_div_iff₀ (by positivity)]
      rw [one_mul]
      exact_mod_cast hle
    · intro hall
      have : l.length = docs.length := by
        rw [hlen, docsContaining_eq_length docs t hall]
      rw [this, div_self (by positivity), Real.log_one]

/-- Witness for C2's amended statement on a concrete two-document
collection where "b" occurs once in each document. -/
theorem C2_witness :
    (1 ≤ ([⟨1, "a b"⟩, ⟨2, "b"⟩] : List Document).length
      ∧ lookupK (buildInvertedIndex [⟨1, "a b"⟩, ⟨2, "b"⟩]) "b".toList = some [1, 2])
    ∧ (lookupK (calculateIDF (buildInvertedIndex [⟨1, "a b"⟩, ⟨2, "b"⟩])
          ([⟨1, "a b"⟩, ⟨2, "b"⟩] : List Document).length) "b".toList
        = some (Real.log ((([⟨1, "a b"⟩, ⟨2, "b"⟩] : List Document).length : ℝ)
            / (([(1 : Int), 2] : List Int).length : ℝ)))
      ∧ ((∀ d ∈ ([⟨1, "a b"⟩, ⟨2, "b"⟩] : List Document),
            (tokenize d.Text).count "b".toList ≤ 1) →
          ([(1 : Int), 2] : List Int).length
              = docsContaining [⟨1, "a b"⟩, ⟨2, "b"⟩] "b".toList
          ∧ 0 ≤ Real.log ((([⟨1, "a b"⟩, ⟨2, "b"⟩] : List Document).length : ℝ)
              / (([(1 : Int), 2] : List Int).length : ℝ))
          ∧ ((∀ d ∈ ([⟨1, "a b"⟩, ⟨2, "b"⟩] : List Document),
                "b".toList ∈ tokenize d.Text) →
              Real.log ((([⟨1, "a b"⟩, ⟨2, "b"⟩] : List Document).length : ℝ)
                / (([(1 : Int), 2] : List Int).length : ℝ)) = 0))) :=
  ⟨⟨by decide, by decide⟩, C2_idf_amended _ _ _ (by decide) (by decide)⟩

/-- C5: `rankSearchResults` returns the document IDs of some
score-descending reordering of its input entries, and on any
enumeration of the example mapping `{1 ↦ 0.5, 2 ↦ 0.8, 3 ↦ 0.2}` it
returns `[2, 1, 3]`. -/
theorem C5_rank_spec :
    (∀ results : List (Int × ℝ), ∃ sorted : List (Int × ℝ),
        sorted.Perm results ∧ sorted.Sorted scoreGE
          ∧ rankSearchResults results = sorted.map (fun p => p.1))
    ∧ (∀ results : List (Int × ℝ),
        results.Perm [(1, 0.5), (2, 0.8), (3, 0.2)] →
        rankSearchResults results = [2, 1, 3]) := by
  constructor
  · intro results
    exact ⟨List.insertionSort scoreGE results, List.perm_insertionSort _ _,
      List.sorted_insertionSort _ _, rfl⟩
  · intro results hperm
    have hS : ([((2 : Int), (0.8 : ℝ)), (1, 0.5), (3, 0.2)]).Sorted scoreGE := by
      simp [List.sorted_cons, scoreGE]
      norm_num
    have hperm2 : (List.insertionSort scoreGE results).Perm
        [((2 : Int), (0.8 : ℝ)), (1, 0.5), (3, 0.2)] :=
      ((List.perm_insertionSort _ _).trans hperm).trans (List.Perm.swap _ _ _)
    have hnd : ((List.insertionSort scoreGE results).map (fun p => p.2)).Nodup := by
      have h1 : ((List.insertionSort scoreGE results).map (fun p => p.2)).Perm
          [(0.8 : ℝ), 0.5, 0.2] := hperm2.map _
      rw [h1.nodup_iff]
      norm_num
    have heq := eq_of_perm_sorted hperm2 (List.sorted_insertionSort _ _) hS hnd
    rw [rankSearchResults, heq]
    rfl

/-- Witness for C5 at the example enumeration itself. -/
theorem C5_witness :
    ([((1 : Int), (0.5 : ℝ)), (2, 0.8), (3, 0.2)]).Perm [(1, 0.5), (2, 0.8), (3, 0.2)]
    ∧ rankSearchResults [((1 : Int), (0.5 : ℝ)), (2, 0.8), (3, 0.2)] = [2, 1, 3] :=
  ⟨List.Perm.refl _, C5_rank_spec.2 _ (List.Perm.refl _)⟩

/-- C9: searching the empty query returns the empty result on any
engine state, and searching a query whose tokens occur in no ingested
document returns the empty result on any freshly built engine — never
an error (the function is total). -/
theorem C9_degenerate_queries :
    (∀ fts : FTS, fts.Search "" = [])
    ∧ (∀ (docs : List Document) (q : String),
        (∀ t ∈ tokenize q, ∀ d ∈ docs, t ∉ tokenize d.Text) →
        ((NewFTS.AddDocuments docs).Start).Search q = []) := by
  constructor
  · intro fts
    exact searchCore_empty_query _
  · intro docs q h
    rw [NewFTS_AddDocuments]
    show searchCore _ q = []
    apply searchCore_eq_nil
    intro p hp
    exact lookupK_tfBuild_none docs _ p.1 [] rfl (h p.1 (fst_mem_toks_of_mem_ctf hp))

/-- Witness for C9's unmatched-query clause. -/
theorem C9_witness :
    (∀ t ∈ tokenize "xyzzy", ∀ d ∈ ([⟨1, "a"⟩] : List Document), t ∉ tokenize d.Text)
    ∧ ((NewFTS.AddDocuments [⟨1, "a"⟩]).Start).Search "xyzzy" = [] :=
  ⟨by decide, C9_degenerate_queries.2 _ _ (by decide)⟩

/-- C10: building once from a fresh state, the `FTS`-method variant and
the standalone-function variant produce identical inverted and TF-IDF
indexes, and identical search score mappings for every query. -/
theorem C10_variant_equivalence (docs : List Document) (q : String) :
    ((NewFTS.AddDocuments docs).Start).InvertedIndex = buildInvertedIndex docs
    ∧ ((NewFTS.AddDocuments docs).Start).TFIDFIndex
        = buildTFIDFIndex docs (buildInvertedIndex docs)
    ∧ ((NewFTS.AddDocuments docs).Start).Search q
        = searchTFIDF (buildTFIDFIndex docs (buildInvertedIndex docs)) q := by
  rw [NewFTS_AddDocuments]
  exact ⟨rfl, rfl, rfl⟩

/-! ## `Start` projections -/

theorem Start_Documents (fts : FTS) : (fts.Start).Documents = fts.Documents := rfl

theorem Start_InvertedIndex (fts : FTS) :
    (fts.Start).InvertedIndex = iiBuild fts.InvertedIndex fts.Documents := rfl

/-- TF-IDF weights of the two-document example after one build and one
search for "test document": document 1 scores `ln 2 / 10`, document 2
is present with score `0` (its only matching term, "document", occurs
in both documents and has IDF 0). -/
theorem exFTS_search_eval :
    lookupK (exFTS.Search "test document") 1 = some (Real.log 2 / 10)
    ∧ lookupK (exFTS.Search "test document") 2 = some 0 := by
  have htok1 : tokenize "This is a test document" =
      ["this".toList, "is".toList, "a".toList, "test".toList, "document".toList] := by decide
  have htok2 : tokenize "This is another document" =
      ["this".toList, "is".toList, "another".toList, "document".toList] := by decide
  have htokq : tokenize "test document" = ["test".toList, "document".toList] := by decide
  have hcnt1 : countTokens ["this".toList, "is".toList, "a".toList, "test".toList,
      "document".toList] = [("this".toList, 1), ("is".toList, 1), ("a".toList, 1),
      ("test".toList, 1), ("document".toList, 1)] := by decide
  have hcnt2 : countTokens ["this".toList, "is".toList, "another".toList, "document".toList] =
      [("this".toList, 1), ("is".toList, 1), ("another".toList, 1),
       ("document".toList, 1)] := by decide
  have hcntq : countTokens ["test".toList, "document".toList] =
      [("test".toList, 1), ("document".toList, 1)] := by decide
  constructor
  · simp only [exFTS, FTS.Search, FTS.Start, FTS.AddDocument, NewFTS, FTS.buildInvertedIndex,
      FTS.buildTFIDFIndex, searchCore, tfBuild, iiBuild, iiInsert, calculateIDF,
      calculateTermFrequency, htok1, htok2, htokq, hcnt1, hcnt2, hcntq,
      List.foldl_cons, List.foldl_nil, List.map_cons, List.map_nil, List.length_cons,
      List.length_nil, List.nil_append, List.cons_append, List.append_nil]
    simp +decide [setK, lookupK, Real.log_one]
    ring
  · simp only [exFTS, FTS.Search, FTS.Start, FTS.AddDocument, NewFTS, FTS.buildInvertedIndex,
      FTS.buildTFIDFIndex, searchCore, tfBuild, iiBuild, iiInsert, calculateIDF,
      calculateTermFrequency, htok1, htok2, htokq, hcnt1, hcnt2, hcntq,
      List.foldl_cons, List.foldl_nil, List.map_cons, List.map_nil, List.length_cons,
      List.length_nil, List.nil_append, List.cons_append, List.append_nil]
    simp +decide [setK, lookupK, Real.log_one]

/-- C1 is false as stated: on the one-document collection `{1 ↦ "a"}`,
a second `Start` changes the inverted index (the posting list `[1]`
becomes `[1, 1]`), because `buildInvertedIndex` appends into the
existing map instead of replacing it. -/
theorem C1_counterexample : fts1.Start.InvertedIndex ≠ fts1.InvertedIndex := by decide

/-- C1 amended: `Start` merges instead of replacing.  A second `Start`
on an unchanged collection appends every posting again — each posting
list doubles — and the TF-IDF weights are then recomputed from the
doubled lists: on `{1 ↦ "a"}` the weight of `("a", 1)` changes from
`0` after one build to `ln(1/2) < 0` after two. -/
theorem C1_rebuild_not_idempotent :
    (∀ (docs : List Document) (t : Str),
        lookupK (((NewFTS.AddDocuments docs).Start.Start).InvertedIndex) t
          = if postings docs t = [] then none
            else some (postings docs t ++ postings docs t))
    ∧ (∃ w₁ w₂ : ℝ, lookup2 fts1.TFIDFIndex "a".toList 1 = some w₁
        ∧ lookup2 fts1.Start.TFIDFIndex "a".toList 1 = some w₂
        ∧ w₁ = 0 ∧ w₂ < 0) := by
  constructor
  · intro docs t
    rw [NewFTS_AddDocuments, Start_InvertedIndex, Start_Documents, Start_InvertedIndex]
    show lookupK (iiBuild (iiBuild [] docs) docs) t = _
    rw [lookupK_iiBuild, lookupK_iiBuild, lookupK_nil, opApp_opApp]
    by_cases hp : postings docs t = []
    · simp [hp, opApp]
    · have hne : postings docs t ++ postings docs t ≠ [] := by simp [hp]
      simp [opApp, hp, hne]
  · have htok : tokenize "a" = ["a".toList] := by decide
    have hcnt : countTokens ["a".toList] = [("a".toList, 1)] := by decide
    refine ⟨0, Real.log (1 / 2), ?_, ?_, rfl, ?_⟩
    · simp only [fts1, lookup2, FTS.Search, FTS.Start, FTS.AddDocument, NewFTS,
        FTS.buildInvertedIndex, FTS.buildTFIDFIndex, tfBuild, iiBuild, iiInsert,
        calculateIDF, calculateTermFrequency, htok, hcnt,
        List.foldl_cons, List.foldl_nil, List.map_cons, List.map_nil, List.length_cons,
        List.length_nil, List.nil_append, List.cons_append, List.append_nil]
      simp +decide [setK, lookupK, Real.log_one]
    · simp only [fts1, lookup2, FTS.Search, FTS.Start, FTS.AddDocument, NewFTS,
        FTS.buildInvertedIndex, FTS.buildTFIDFIndex, tfBuild, iiBuild, iiInsert,
        calculateIDF, calculateTermFrequency, htok, hcnt,
        List.foldl_cons, List.foldl_nil, List.map_cons, List.map_nil, List.length_cons,
        List.length_nil, List.nil_append, List.cons_append, List.append_nil]
      simp +decide [setK, lookupK]
    · exact Real.log_neg (by norm_num) (by norm_num)

/-- C3 is false as stated: in the two-document example, searching
"test document" returns document 2 with accumulated score exactly `0`
(its only matching term has IDF 0), so the result does not contain only
nonzero-scored documents. -/
theorem C3_counterexample : lookupK (exFTS.Search "test document") 2 = some 0 :=
  exFTS_search_eval.2

/-- C3 amended: the result of `Search` contains exactly those document
IDs that have a TF-IDF entry for at least one query token — including
entries whose stored weight is `0`, so a zero score can appear. -/
theorem C3_search_candidates (fts : FTS) (q : String) (d : Int) :
    (lookupK (fts.Search q) d).isSome ↔
      ∃ t, t ∈ tokenize q ∧ ∃ m, lookupK fts.TFIDFIndex t = some m ∧ (lookupK m d).isSome :=
  lookupK_searchCore_isSome fts.TFIDFIndex q d

/-- C4: after ingesting the two example documents and building once,
searching "test document" scores both documents, and document 1
(`ln 2 / 10`) scores strictly above document 2 (`0`). -/
theorem C4_end_to_end :
    ∃ s₁ s₂ : ℝ, lookupK (exFTS.Search "test document") 1 = some s₁
      ∧ lookupK (exFTS.Search "test document") 2 = some s₂
      ∧ s₂ < s₁ :=
  ⟨Real.log 2 / 10, 0, exFTS_search_eval.1, exFTS_search_eval.2,
    by positivity⟩

end FTSpec
